import Mathlib

/-!
Verification development for the Shrdlite block-world planner.

The development shallowly embeds the planner core:
* the block-world state type `WorldNode` and its successor relation
  `WorldNode.neighbours` (Planner module, current revision);
* the physical-law predicate `Interpreter.obeyLaws` (Interpreter module);
* the goal predicate, heuristic and position lookup `indexOf2D` built by
  `planInterpretation` (Planner module);
* the plan renderer and the `Planner.plan` driver;
* the generic A-star search `aStarSearch` (Graph module, current revision),
  with the vendored collections library (priority queue, dictionary, set)
  modelled from the design document: the frontier dequeues a node of minimal
  recorded f-value, breaking ties by insertion order.

JavaScript numbers that can be `-1`, a natural index, or `Infinity`
(positions produced by `indexOf2D`) are embedded as `JPos`/`JNum` with the
comparison and arithmetic rules JavaScript applies to them.
-/

/-- A JavaScript number arising in position computations: either a finite
integer or positive Infinity. -/
inductive JNum where
  | int (z : Int)
  | inf
deriving DecidableEq, Repr

namespace JNum

/-- JavaScript `<` on these numbers: every finite value is below `Infinity`,
and `Infinity < Infinity` is false. -/
def jlt : JNum → JNum → Bool
  | int a, int b => a < b
  | int _, inf => true
  | inf, _ => false

/-- Adding a finite integer constant: `Infinity + c = Infinity`. -/
def jadd : JNum → Int → JNum
  | int a, c => int (a + c)
  | inf, _ => inf

end JNum

/-- Result of `indexOf2D`: the floor sentinel `[-1,-1]`, a concrete
`(column, row)` position, or the `[Infinity, Infinity]` sentinel for an
object found in no stack. -/
inductive JPos where
  | floorP
  | atP (col row : Nat)
  | infP
deriving DecidableEq, Repr

namespace JPos

/-- The column component `p[0]` as a JavaScript number. -/
def col : JPos → JNum
  | floorP => .int (-1)
  | atP c _ => .int c
  | infP => .inf

/-- The row component `p[1]` as a JavaScript number. -/
def row : JPos → JNum
  | floorP => .int (-1)
  | atP _ r => .int r
  | infP => .inf

/-- JavaScript `isFinite` on the column component: true for `-1` and for
actual indices, false only for `Infinity`. -/
def isFiniteCol : JPos → Bool
  | infP => false
  | _ => true

end JPos

/-- An object's immutable physical definition (module World). -/
structure ObjectDefinition where
  form : String
  size : String
  color : String
deriving DecidableEq, Repr

namespace Interpreter

/-- An object placed in the world together with its position
(Interpreter module, class WorldObject); `column`/`row` are `-1` for the
held-object and floor wrappers the Interpreter builds. -/
structure WorldObject where
  obj : ObjectDefinition
  column : Int
  row : Int
deriving DecidableEq, Repr

/-- The physical-law check of the Interpreter module (function `obeyLaws`):
decides whether `mainObject` may be put in relation `rel` (only
`ontop`/`inside` are restricted) to `relativeObject`. -/
def obeyLaws (mainObject relativeObject : WorldObject) (rel : String) : Bool :=
  if rel == "ontop" || rel == "inside" then
    if relativeObject.obj.form == "floor" && relativeObject.column ≤ 0 then false
    else if mainObject.obj.size == "large" && relativeObject.obj.size == "small" then false
    else if relativeObject.obj.form == "ball" then false
    else if mainObject.obj.form == "ball" &&
        relativeObject.obj.form != "box" && relativeObject.obj.form != "floor" then false
    else if relativeObject.obj.form == "box" && rel != "inside" then false
    else if relativeObject.obj.form != "box" && rel != "ontop" then false
    else if mainObject.obj.form == "box" &&
        (relativeObject.obj.form == "pyramid" || relativeObject.obj.form == "plank" ||
          relativeObject.obj.form == "box") &&
        mainObject.obj.size == relativeObject.obj.size then false
    else if mainObject.obj.size == "small" && relativeObject.obj.size == "small" &&
        mainObject.obj.form == "box" &&
        (relativeObject.obj.form == "brick" || relativeObject.obj.form == "pyramid" ||
          relativeObject.obj.form == "box") then false
    else if mainObject.obj.size == "large" && mainObject.obj.form == "box" &&
        relativeObject.obj.size == "large" && relativeObject.obj.form == "box" then false
    else true
  else true

/-- Modelled from the spec: the Planner's `WorldNode.neighbours` passes raw
`ObjectDefinition`s to `Interpreter.obeyLaws`, whose parameters are
`WorldObject` wrappers carrying a position (the call does not typecheck as
written, and `obeyLaws` is not exported from the Interpreter module).  Per
the design document the physical laws are pure predicates over the two
object definitions (form and size), independent of position, so the call is
modelled as `obeyLaws` applied to wrappers of the two definitions; `(-1, -1)`
mirrors the wrapper the Interpreter itself builds for a held object.  The
wrapper position is only read by the floor-capacity clause, which cannot
apply at this call site (the supporting object is the top of a stack, not
the floor pseudo-object). -/
def placementLegal (a b : ObjectDefinition) (rel : String) : Bool :=
  obeyLaws ⟨a, -1, -1⟩ ⟨b, -1, -1⟩ rel

end Interpreter

/-- A block-world search node (Planner module, class WorldNode, current
revision): the stacks (each listed bottom to top), the arm column, the held
object and the shared object-definition table. -/
structure WorldNode where
  «stacks» : List (List String)
  armCol : Nat
  holding : Option String
  objects : String → ObjectDefinition

namespace WorldNode

/-- The successor states of a node (method `WorldNode.neighbours`, current
revision).  The method first takes a deep copy `stackCopy` of the stacks;
each pushed node deep-copies its stack argument in the constructor, so the
pop and push mutations of `stackCopy` in the pick/put branches reach neither the
receiver nor the previously pushed nodes; under value semantics the copies
are the values themselves. -/
def neighbours (s : WorldNode) : List WorldNode :=
  let stackCopy := s.stacks
  let col := stackCopy.getD s.armCol []
  (if s.armCol ≠ 0 then
    [⟨stackCopy, s.armCol - 1, s.holding, s.objects⟩]
  else []) ++
  (if (s.armCol : Int) ≠ (stackCopy.length : Int) - 1 then
    [⟨stackCopy, s.armCol + 1, s.holding, s.objects⟩]
  else []) ++
  (match s.holding with
  | none =>
    if 0 < col.length then
      [⟨stackCopy.set s.armCol col.dropLast, s.armCol, col.getLast?, s.objects⟩]
    else []
  | some hobj =>
    if col.length = 0 ||
        Interpreter.placementLegal (s.objects hobj) (s.objects (col.getLast?.getD ""))
          "ontop" ||
        Interpreter.placementLegal (s.objects hobj) (s.objects (col.getLast?.getD ""))
          "inside" then
      [⟨stackCopy.set s.armCol (col ++ [hobj]), s.armCol, none, s.objects⟩]
    else [])

/-- A method call `this.neighbours()` with the receiver's state threaded
explicitly: the returned pair is (result list, state of the receiver after
the call).  The method body assigns only to the locals `nodes`, `stackCopy`,
`newStacks` and `newHolding`; `stackCopy` is a deep copy of `this.stacks`,
so no mutation reaches the receiver's fields. -/
def neighboursCall (s : WorldNode) : List WorldNode × WorldNode :=
  (neighbours s, s)

end WorldNode

namespace Interpreter

/-- A literal of the goal formula (Interpreter module): `relation` names one
of the spatial relations or `holding`; `args` are the object identifiers
(or `"floor"`). -/
structure Literal where
  polarity : Bool
  relation : String
  args : List String
deriving DecidableEq, Repr

/-- A conjunction of literals. -/
def Conjunction := List Literal

/-- A goal formula in disjunctive normal form. -/
def DNFFormula := List (List Literal)

end Interpreter

namespace Planner

/-- Position lookup (Planner module, function `indexOf2D`, current
revision): `"floor"` maps to the `[-1,-1]` sentinel; otherwise the first
occurrence of `item`, scanning stacks left to right and each stack bottom
to top, gives `(column, row)`; an absent item gives `[Infinity,Infinity]`. -/
def indexOf2D (arr : List (List String)) (item : String) : JPos :=
  if item == "floor" then .floorP
  else go arr 0
where
  /-- Scan the columns from index `c` on. -/
  go : List (List String) → Nat → JPos
    | [], _ => .infP
    | a :: rest, c =>
      match goRow a 0 with
      | some r => .atP c r
      | none => go rest (c + 1)
  /-- Scan one column from row `r` on. -/
  goRow : List String → Nat → Option Nat
    | [], _ => none
    | s :: rest, r => if s == item then some r else goRow rest (r + 1)

/-- JavaScript comparison of an optional held object with an argument
string: `null` compares unequal to every string. -/
def optEqStr : Option String → String → Bool
  | some v, s => v == s
  | none, _ => false

/-- Evaluation of one spatial literal by the `switch` of the goal closure
in `planInterpretation`, given the two looked-up positions.  An unmatched
relation leaves `isGoal` at `false`. -/
def relEval (rel : String) (arg1 : String) (p0 p1 : JPos) : Bool :=
  if rel == "leftof" then JNum.jlt p0.col p1.col
  else if rel == "rightof" then JNum.jlt p1.col p0.col
  else if rel == "inside" || rel == "ontop" then
    (p0.col == p1.col && p0.row == JNum.jadd p1.row 1) ||
      (arg1 == "floor" && p0.row == JNum.int 0)
  else if rel == "under" then p0.col == p1.col && JNum.jlt p0.row p1.row
  else if rel == "beside" then
    p0.col == JNum.jadd p1.col 1 || p0.col == JNum.jadd p1.col (-1)
  else if rel == "above" then p0.col == p1.col && JNum.jlt p1.row p0.row
  else false

/-- The literal loop of the goal closure (`for (let formula of intrp)`),
carrying the `isGoal` flag.  `Except.error b` models the early
`return false` that aborts the whole closure when a spatial literal has an
operand of non-finite position; `Except.ok g` is the flag after the loop. -/
def goalLits (n : WorldNode) : Bool → List Interpreter.Literal → Except Bool Bool
  | g, [] => .ok g
  | g, f :: fs =>
    if g then goalLits n true fs
    else
      if f.relation == "holding" then
        goalLits n (optEqStr n.holding (f.args.getD 0 "")) fs
      else
        let p0 := indexOf2D n.stacks (f.args.getD 0 "")
        let p1 := indexOf2D n.stacks (f.args.getD 1 "")
        if !p0.isFiniteCol || !p1.isFiniteCol then .error false
        else goalLits n (relEval f.relation (f.args.getD 1 "") p0 p1) fs

/-- The conjunction loop of the goal closure (`for (let intrp of
interpretation)`). -/
def goalConjs (n : WorldNode) : Bool → List (List Interpreter.Literal) → Except Bool Bool
  | g, [] => .ok g
  | g, c :: cs =>
    match goalLits n g c with
    | .error b => .error b
    | .ok g2 => goalConjs n g2 cs

/-- The goal predicate built by `planInterpretation` (closure `goal`,
current revision): scans every literal of every conjunction keeping an
`isGoal` flag, skips all further evaluation once the flag is true, and
returns `false` for the whole state as soon as a spatial literal has an
operand of non-finite position. -/
def goal (interpretation : List (List Interpreter.Literal)) (n : WorldNode) : Bool :=
  match goalConjs n false interpretation with
  | .error b => b
  | .ok g => g

end Planner

namespace Planner

/-- The value a looked-up column takes after the reassignment
`if (!isFinite(colA)) colA = n.armCol` in the heuristic closure: the floor
sentinel stays `-1`, a found column stays itself, `Infinity` becomes the
arm column. -/
def finCol (armCol : Nat) : JPos → Int
  | .floorP => -1
  | .atP c _ => c
  | .infP => armCol

/-- The finite value of a column known to satisfy `isFinite`: `-1` for the
floor sentinel, the index for a found column (the `Infinity` branch is
unreachable under the guard and maps to 0). -/
def colIntF : JPos → Int
  | .floorP => -1
  | .atP c _ => c
  | .infP => 0

/-- The per-literal estimate of the heuristic closure in
`planInterpretation` (current revision), for a state that does not satisfy
the goal: buried-object penalties for both operands, the arm-distance term
for `holding`, the operand distance for the vertical relations, and the
distance from the arm to the nearer operand. -/
def litH (n : WorldNode) (f : Interpreter.Literal) : Int :=
  let pA := indexOf2D n.stacks (f.args.getD 0 "")
  let pD := indexOf2D n.stacks (f.args.getD 1 "")
  let h1 : Int :=
    match pA with
    | .floorP => 0
    | .infP => 1
    | .atP c r => if !(f.relation == "under") then
        4 * (((n.stacks.getD c []).length : Int) - 1 - r) else 0
  let h2 : Int := h1 +
    (match pD with
    | .floorP => 0
    | .infP => 1
    | .atP c r => if !(f.relation == "above") then
        4 * (((n.stacks.getD c []).length : Int) - 1 - r) else 0)
  let h3 : Int := h2 +
    (if f.relation == "holding" && pA.isFiniteCol then
      |colIntF pA - (n.armCol : Int)| else 0)
  let h4 : Int := h3 +
    (if f.relation == "ontop" || f.relation == "inside" ||
        f.relation == "under" || f.relation == "above" then
      |finCol n.armCol pA - finCol n.armCol pD| else 0)
  let colA2 := finCol n.armCol pA
  let colD2 := finCol n.armCol pD
  h4 + min |colA2 - (n.armCol : Int)| |colD2 - (n.armCol : Int)|

/-- The estimates pushed onto `hArr`: one entry per literal of every
conjunction, in iteration order; a literal contributes `0` whenever the
state satisfies the goal predicate. -/
def hArrOf (interpretation : List (List Interpreter.Literal)) (n : WorldNode) :
    List (List Interpreter.Literal) → List Int
  | [] => []
  | c :: cs =>
    c.map (fun f => if goal interpretation n then 0 else litH n f) ++
      hArrOf interpretation n cs

/-- JavaScript `Math.min.apply(null, hArr)`: `Infinity` on the empty list,
otherwise the minimum. -/
def minList : List Int → JNum
  | [] => .inf
  | x :: t => .int (t.foldl min x)

/-- The heuristic closure built by `planInterpretation` (current
revision). -/
def heuristics (interpretation : List (List Interpreter.Literal)) (n : WorldNode) : JNum :=
  minList (hArrOf interpretation n interpretation)

end Planner

namespace Planner

/-- The token the plan loop in `planInterpretation` emits for one
consecutive pair of path nodes: `r` when the arm column grew, `l` when it
shrank, otherwise `p` when the earlier node held nothing and `d` when it
held something. -/
def stepTok (a b : WorldNode) : String :=
  if a.armCol < b.armCol then "r"
  else if b.armCol < a.armCol then "l"
  else if a.holding = none then "p"
  else "d"

/-- The plan-rendering loop of `planInterpretation` (current revision):
`prevNode` is shifted off the path and every remaining node is paired with
its predecessor, emitting one token per pair. -/
def renderPlan : List WorldNode → List String
  | [] => []
  | [_] => []
  | a :: b :: t => stepTok a b :: renderPlan (b :: t)

/-- The empty-plan guard of `Planner.plan`: an empty plan is replaced by
the sentinel notice. -/
def wrapPlan (p : List String) : List String :=
  if p.length = 0 then ["That is already true!"] else p

/-- The `forEach` loop of `Planner.plan`, threading the `errors` and
`plans` accumulators: each interpretation is planned inside a
`try`/`catch`; a successful plan is sentinel-wrapped and appended to
`plans`, a raised error is appended to `errors`. -/
def planLoop {I E : Type} (planInt : I → Except E (List String)) :
    List I → List E → List (I × List String) → List E × List (I × List String)
  | [], errs, plans => (errs, plans)
  | i :: rest, errs, plans =>
    match planInt i with
    | .ok p => planLoop planInt rest errs (plans ++ [(i, wrapPlan p)])
    | .error e => planLoop planInt rest (errs ++ [e]) plans

/-- The driver `Planner.plan`, with the per-interpretation planning
(`planInterpretation` applied to the current state) abstracted as the
fallible function `planInt`.  When no interpretation produced a plan the
driver throws `errors[0]`, which is the JavaScript `undefined` value
(modelled `none`) when no error was collected either. -/
def plan {I E : Type} (planInt : I → Except E (List String)) (interps : List I) :
    Except (Option E) (List (I × List String)) :=
  let r := planLoop planInt interps [] []
  if r.2.length ≠ 0 then .ok r.2 else .error r.1.head?

end Planner

/-! ## The generic A-star search of the Graph module (current revision)

The vendored collections library is not part of the sources; following the
design document it is modelled as: `Dictionary`s are finite maps over nodes
(node keys are compared structurally, as their `toString` renderings are
injective), the `Set` of visited nodes is a list with structural
membership, and the `PriorityQueue` dequeues a node whose f-value recorded
in `fValDict` at dequeue time is minimal, breaking ties by insertion
order.  The wall clock read once per loop iteration is an oracle
`elapsed : Nat → Nat` giving the milliseconds since the start time at the
beginning of iteration `i`. -/

/-- The result type of a successful search (Graph module, class
SearchResult). -/
structure SearchResult (Node : Type) where
  path : List Node
  cost : Nat
deriving DecidableEq, Repr

/-- The outcome of a run of `aStarSearch`, instrumented with the exit the
run took.  `found` is the `return result` on reaching a goal;
`timeoutBreak` is the `break` on an elapsed time budget and `exhausted` the
exit of the `while` loop on an empty frontier — both fall through to the
final `return;`, producing `undefined`.  `stuck` marks a dictionary lookup
of an absent key and `fuelOut` marks model-fuel exhaustion; neither occurs
in any run examined here. -/
inductive AStarOutcome (Node : Type) where
  | found (r : SearchResult Node)
  | timeoutBreak
  | exhausted
  | stuck
  | fuelOut
deriving DecidableEq, Repr

/-- The value `aStarSearch` actually hands back to its caller: the search
result on success, and `undefined` (modelled `none`) on both failure
exits.  The model-artifact outcomes also map to `none`; no run examined
here produces them. -/
def AStarOutcome.toReturn {Node : Type} : AStarOutcome Node → Option (SearchResult Node)
  | .found r => some r
  | _ => none

/-- The search bookkeeping: the frontier in insertion order, the three
dictionaries, and the visited set. -/
structure AStarState (Node : Type) where
  frontier : List Node
  costD : Node → Option Nat
  fvalD : Node → Option Nat
  parentD : Node → Option Node
  visited : List Node
  iter : Nat

/-- Pointwise update of a dictionary (`setValue`). -/
def dictSet {Node : Type} [DecidableEq Node] (d : Node → Option Nat) (k : Node) (v : Nat) :
    Node → Option Nat :=
  fun x => if x = k then some v else d x

/-- Pointwise update of the parent dictionary. -/
def parentSet {Node : Type} [DecidableEq Node] (d : Node → Option Node) (k v : Node) :
    Node → Option Node :=
  fun x => if x = k then some v else d x

/-- `fa <= fb` where a missing f-value reads as `Infinity`. -/
def fLE : Option Nat → Option Nat → Bool
  | _, none => true
  | none, some _ => false
  | some a, some b => a ≤ b

/-- `fVal >= oldFVal` where a missing `oldFVal` reads as `Infinity`: a
finite value is never `>=` `Infinity`. -/
def geOld (fVal : Nat) : Option Nat → Bool
  | none => false
  | some v => v ≤ fVal

/-- The frontier dequeue: the first node (in insertion order) whose
recorded f-value is minimal, together with the remaining queue. -/
def dequeueMin {Node : Type} (fv : Node → Option Nat) : List Node → Option (Node × List Node)
  | [] => none
  | x :: xs =>
    match dequeueMin fv xs with
    | none => some (x, [])
    | some (y, rest) =>
      if fLE (fv x) (fv y) then some (x, xs) else some (y, x :: rest)

/-- Path reconstruction (function `followParent`, current revision): walk
predecessor links from the goal node, prepending each parent, until `start`
is reached; the fuel bounds the walk, which in the source would not
terminate on a broken parent chain. -/
def followParent {Node : Type} [DecidableEq Node] :
    Nat → (Node → Option Node) → Node → Node → Option (List Node)
  | 0, _, _, _ => none
  | fuel + 1, pd, start, cur =>
    if cur = start then some [cur]
    else
      match pd cur with
      | none => none
      | some p =>
        match followParent fuel pd start p with
        | none => none
        | some q => some (q ++ [cur])

/-- One step of relaxation can end the whole search. -/
inductive RelaxResult (Node : Type) where
  | done (st : AStarState Node)
  | foundR (r : SearchResult Node)
  | stuckR

/-- The edge loop of `aStarSearch` (current revision): for each outgoing
edge of `current`, compute the tentative cost and f-value, skip visited
nodes and queued nodes not strictly improved, record the new cost, f-value
and parent, return at once when the relaxed node satisfies the goal, and
otherwise enqueue it. -/
def relaxEdges {Node : Type} [DecidableEq Node] (goal : Node → Bool) (h : Node → Nat)
    (fuel : Nat) (start current : Node) :
    AStarState Node → List (Node × Nat) → RelaxResult Node
  | st, [] => .done st
  | st, (next, ec) :: es =>
    match st.costD current with
    | none => .stuckR
    | some gc =>
      let costNext := gc + ec
      let fVal := costNext + h next
      let oldFVal := st.fvalD next
      if next ∈ st.visited then relaxEdges goal h fuel start current st es
      else if next ∈ st.frontier && geOld fVal oldFVal then
        relaxEdges goal h fuel start current st es
      else
        let st2 : AStarState Node :=
          { st with
            parentD := parentSet st.parentD next current
            costD := dictSet st.costD next costNext
            fvalD := dictSet st.fvalD next fVal }
        if goal next then
          match st2.costD next with
          | none => .stuckR
          | some c =>
            match followParent fuel st2.parentD start next with
            | none => .stuckR
            | some p => .foundR ⟨p, c⟩
        else
          relaxEdges goal h fuel start current
            { st2 with frontier := st2.frontier ++ [next] } es

/-- The main `while` loop of `aStarSearch` (current revision): check the
time budget, dequeue the minimal-f node, relax its outgoing edges, and add
it to the visited set. -/
def aStarLoop {Node : Type} [DecidableEq Node] (graph : Node → List (Node × Nat))
    (goal : Node → Bool) (h : Node → Nat) (elapsed : Nat → Nat) (timeBudget : Nat)
    (start : Node) : Nat → AStarState Node → AStarOutcome Node
  | 0, _ => .fuelOut
  | fuel + 1, st =>
    match st.frontier with
    | [] => .exhausted
    | _ :: _ =>
      if 1000 * timeBudget < elapsed st.iter then .timeoutBreak
      else
        match dequeueMin st.fvalD st.frontier with
        | none => .exhausted
        | some (current, rest) =>
          match relaxEdges goal h fuel start current { st with frontier := rest }
              (graph current) with
          | .stuckR => .stuck
          | .foundR r => .found r
          | .done st2 =>
            aStarLoop graph goal h elapsed timeBudget start fuel
              { st2 with visited := st2.visited ++ [current], iter := st.iter + 1 }

/-- The instrumented run of `aStarSearch` (Graph module, current revision):
initialise the dictionaries and frontier with the start node and run the
main loop. -/
def aStarInstr {Node : Type} [DecidableEq Node] (graph : Node → List (Node × Nat))
    (start : Node) (goal : Node → Bool) (h : Node → Nat) (elapsed : Nat → Nat)
    (timeBudget : Nat) (fuel : Nat) : AStarOutcome Node :=
  aStarLoop graph goal h elapsed timeBudget start fuel
    { frontier := [start]
      costD := dictSet (fun _ => none) start 0
      fvalD := dictSet (fun _ => none) start (h start)
      parentD := fun _ => none
      visited := []
      iter := 0 }

/-- `aStarSearch` as its caller sees it: the search result on success,
`undefined` on failure. -/
def aStarSearch {Node : Type} [DecidableEq Node] (graph : Node → List (Node × Nat))
    (start : Node) (goal : Node → Bool) (h : Node → Nat) (elapsed : Nat → Nat)
    (timeBudget : Nat) (fuel : Nat) : Option (SearchResult Node) :=
  (aStarInstr graph start goal h elapsed timeBudget fuel).toReturn

/-! ## Paths, true shortest distance and admissibility -/

/-- A list of nodes is a path of the graph when every consecutive pair is
connected by an outgoing edge. -/
def validB {Node : Type} [DecidableEq Node] (g : Node → List (Node × Nat)) :
    List Node → Bool
  | [] => true
  | [_] => true
  | a :: b :: t => (g a).any (fun e => e.1 == b) && validB g (b :: t)

/-- A path of the graph from `start` ending in a node satisfying the goal
predicate. -/
def GoalPath {Node : Type} [DecidableEq Node] (g : Node → List (Node × Nat))
    (goal : Node → Bool) (start : Node) (q : List Node) : Prop :=
  validB g q = true ∧ q.head? = some start ∧
    ∃ v, q.getLast? = some v ∧ goal v = true

/-- `d` is the true shortest number of actions from `start` to a node
satisfying the goal predicate: some goal path has `d` actions and none has
fewer. -/
def TrueShortest {Node : Type} [DecidableEq Node] (g : Node → List (Node × Nat))
    (goal : Node → Bool) (start : Node) (d : Nat) : Prop :=
  (∃ q, GoalPath g goal start q ∧ q.length - 1 = d) ∧
    ∀ q, GoalPath g goal start q → d ≤ q.length - 1

/-- A heuristic is admissible when it never overestimates the true minimal
remaining cost to a goal node. -/
def Admissible {Node : Type} [DecidableEq Node] (g : Node → List (Node × Nat))
    (goal : Node → Bool) (h : Node → Nat) : Prop :=
  ∀ n d, TrueShortest g goal n d → h n ≤ d

/-- `reachFwd g k u v` holds when some path of at most `k` actions leads
from `u` to `v`. -/
def reachFwd {Node : Type} [DecidableEq Node] (g : Node → List (Node × Nat)) :
    Nat → Node → Node → Bool
  | 0, u, v => u == v
  | k + 1, u, v => u == v || (g u).any (fun e => reachFwd g k e.1 v)

/-- Every path of the graph witnesses forward reachability in as many steps
as it has actions. -/
theorem path_reachFwd {Node : Type} [DecidableEq Node] (g : Node → List (Node × Nat)) :
    ∀ (q : List Node) (u v : Node), validB g q = true → q.head? = some u →
      q.getLast? = some v → reachFwd g (q.length - 1) u v = true := by
  intro q
  induction q with
  | nil => intro u v _ hh _; simp at hh
  | cons a t ih =>
    cases t with
    | nil =>
      intro u v _ hh hl
      simp at hh hl
      subst hh; subst hl
      simp [reachFwd]
    | cons b t2 =>
      intro u v hv hh hl
      simp at hh
      subst hh
      have hl2 : (b :: t2).getLast? = some v := by
        simpa using hl
      have hv2 : validB g (b :: t2) = true := by
        have := hv
        unfold validB at this
        exact (Bool.and_eq_true _ _).mp this |>.2
      have hedge : ∃ e ∈ g a, (e.1 == b) = true := by
        have := hv
        unfold validB at this
        exact List.any_eq_true.mp ((Bool.and_eq_true _ _).mp this |>.1)
      have hrec := ih b v hv2 rfl hl2
      obtain ⟨e, he, heb⟩ := hedge
      have heb2 : e.1 = b := by simpa using heb
      show reachFwd g ((a :: b :: t2).length - 1) a v = true
      have hlen : (a :: b :: t2).length - 1 = ((b :: t2).length - 1) + 1 := by
        simp
      rw [hlen]
      unfold reachFwd
      refine Bool.or_eq_true_iff.mpr (Or.inr ?_)
      refine List.any_eq_true.mpr ⟨e, he, ?_⟩
      rw [heb2]
      exact hrec

/-! ## Soundness of the recorded costs and parent links -/

/-- `PathTo g start n c`: some path of the graph runs from `start` to `n`
using exactly `c` actions. -/
def PathTo {Node : Type} [DecidableEq Node] (g : Node → List (Node × Nat))
    (start n : Node) (c : Nat) : Prop :=
  ∃ q, validB g q = true ∧ q.head? = some start ∧ q.getLast? = some n ∧
    q.length = c + 1

/-- `p` has an outgoing edge to `n`. -/
def EdgeOf {Node : Type} (g : Node → List (Node × Nat)) (p n : Node) : Prop :=
  ∃ ec, (n, ec) ∈ g p

/-- The soundness invariant of the search state: every recorded cost is the
action count of an actual path from the start, and every parent link is a
graph edge. -/
def AInv {Node : Type} [DecidableEq Node] (g : Node → List (Node × Nat))
    (start : Node) (st : AStarState Node) : Prop :=
  (∀ n c, st.costD n = some c → PathTo g start n c) ∧
    (∀ n p, st.parentD n = some p → EdgeOf g p n)

/-- Appending a node reached by one edge keeps a path valid. -/
theorem validB_append_one {Node : Type} [DecidableEq Node]
    (g : Node → List (Node × Nat)) :
    ∀ (q : List Node) (p n : Node), validB g q = true → q.getLast? = some p →
      EdgeOf g p n → validB g (q ++ [n]) = true := by
  intro q
  induction q with
  | nil => intro p n _ hl _; simp at hl
  | cons a t ih =>
    intro p n hv hl he
    cases t with
    | nil =>
      simp at hl
      subst hl
      obtain ⟨ec, hec⟩ := he
      show validB g (a :: n :: []) = true
      unfold validB
      refine (Bool.and_eq_true _ _).mpr ⟨?_, rfl⟩
      exact List.any_eq_true.mpr ⟨(n, ec), hec, by simp⟩
    | cons b t2 =>
      have hv2 : validB g (b :: t2) = true := by
        have := hv
        unfold validB at this
        exact (Bool.and_eq_true _ _).mp this |>.2
      have hedge := by
        have := hv
        unfold validB at this
        exact (Bool.and_eq_true _ _).mp this |>.1
      have hl2 : (b :: t2).getLast? = some p := by simpa using hl
      have hrec := ih p n hv2 hl2 he
      show validB g (a :: ((b :: t2) ++ [n])) = true
      have : (b :: t2) ++ [n] = b :: (t2 ++ [n]) := by simp
      rw [this]
      unfold validB
      refine (Bool.and_eq_true _ _).mpr ⟨hedge, ?_⟩
      simpa using hrec

/-- A successful `followParent` walk over sound parent links yields a valid
path from `start` to the queried node. -/
theorem followParent_sound {Node : Type} [DecidableEq Node]
    (g : Node → List (Node × Nat)) (pd : Node → Option Node)
    (hpd : ∀ n p, pd n = some p → EdgeOf g p n) :
    ∀ (fuel : Nat) (start cur : Node) (q : List Node),
      followParent fuel pd start cur = some q →
      validB g q = true ∧ q.head? = some start ∧ q.getLast? = some cur := by
  intro fuel
  induction fuel with
  | zero => intro start cur q hq; simp [followParent] at hq
  | succ m ih =>
    intro start cur q hq
    unfold followParent at hq
    by_cases hc : cur = start
    · simp [hc] at hq
      subst hq
      subst hc
      exact ⟨rfl, rfl, rfl⟩
    · simp [hc] at hq
      cases hp : pd cur with
      | none => simp [hp] at hq
      | some p =>
        simp only [hp] at hq
        cases hq2 : followParent m pd start p with
        | none => simp [hq2] at hq
        | some q2 =>
          simp only [hq2, Option.some.injEq] at hq
          subst hq
          obtain ⟨hval, hhead, hlast⟩ := ih start p q2 hq2
          refine ⟨validB_append_one g q2 p cur hval hlast (hpd cur p hp), ?_, ?_⟩
          · cases q2 with
            | nil => simp at hhead
            | cons x xs => simpa using hhead
          · simp

/-- What holds of a returned search result: its path is a valid path of the
graph from the start to a node satisfying the goal, and its cost is the
action count of an actual path from the start to that node. -/
def FoundOK {Node : Type} [DecidableEq Node] (g : Node → List (Node × Nat))
    (goal : Node → Bool) (start : Node) (r : SearchResult Node) : Prop :=
  validB g r.path = true ∧ r.path.head? = some start ∧
    ∃ v, r.path.getLast? = some v ∧ goal v = true ∧ PathTo g start v r.cost

/-- Relaxing the outgoing edges of a node preserves the soundness
invariant, and a result returned during relaxation satisfies `FoundOK`
(for unit edge costs). -/
theorem relaxEdges_sound {Node : Type} [DecidableEq Node]
    (g : Node → List (Node × Nat)) (hUnit : ∀ n, ∀ e ∈ g n, e.2 = 1)
    (goal : Node → Bool) (h : Node → Nat) (fuel : Nat) (start current : Node) :
    ∀ (edges : List (Node × Nat)) (st : AStarState Node),
      (∀ e ∈ edges, e ∈ g current) → AInv g start st →
      (∀ st2, relaxEdges goal h fuel start current st edges = .done st2 →
        AInv g start st2) ∧
      (∀ r, relaxEdges goal h fuel start current st edges = .foundR r →
        FoundOK g goal start r) := by
  intro edges
  induction edges with
  | nil =>
    intro st _ hinv
    constructor
    · intro st2 hd
      unfold relaxEdges at hd
      cases hd
      exact hinv
    · intro r hr
      unfold relaxEdges at hr
      cases hr
  | cons e es ih =>
    obtain ⟨next, ec⟩ := e
    intro st hsub hinv
    have hsub2 : ∀ e ∈ es, e ∈ g current := fun e he => hsub e (List.mem_cons_of_mem _ he)
    have hedge : (next, ec) ∈ g current := hsub _ (List.mem_cons_self _ _)
    have hec : ec = 1 := hUnit current _ hedge
    cases hcc : st.costD current with
    | none =>
      constructor
      · intro st2 hd
        unfold relaxEdges at hd
        rw [hcc] at hd
        cases hd
      · intro r hr
        unfold relaxEdges at hr
        rw [hcc] at hr
        cases hr
    | some gc =>
      -- the updated state after recording cost, f-value and parent of `next`
      have hpath : PathTo g start current gc := hinv.1 current gc hcc
      have hinv2 : AInv g start
          { st with
            parentD := parentSet st.parentD next current
            costD := dictSet st.costD next (gc + ec)
            fvalD := dictSet st.fvalD next (gc + ec + h next) } := by
        constructor
        · intro n c hn
          dsimp only at hn
          by_cases hn2 : n = next
          · subst hn2
            have : dictSet st.costD n (gc + ec) n = some (gc + ec) := by
              simp [dictSet]
            rw [this] at hn
            cases hn
            obtain ⟨q, hq, hh, hl, hlen⟩ := hpath
            refine ⟨q ++ [n], validB_append_one g q current n hq hl ⟨ec, hedge⟩, ?_, ?_, ?_⟩
            · cases q with
              | nil => simp at hl
              | cons x xs => simpa using hh
            · simp
            · simp [hlen, hec]
          · have : dictSet st.costD next (gc + ec) n = st.costD n := by
              simp [dictSet, hn2]
            rw [this] at hn
            exact hinv.1 n c hn
        · intro n p hn
          dsimp only at hn
          by_cases hn2 : n = next
          · subst hn2
            have : parentSet st.parentD n current n = some current := by
              simp [parentSet]
            rw [this] at hn
            cases hn
            exact ⟨ec, hedge⟩
          · have : parentSet st.parentD next current n = st.parentD n := by
              simp [parentSet, hn2]
            rw [this] at hn
            exact hinv.2 n p hn
      constructor
      · intro st2 hd
        unfold relaxEdges at hd
        rw [hcc] at hd
        simp only at hd
        by_cases hvis : next ∈ st.visited
        · rw [if_pos hvis] at hd
          exact (ih st hsub2 hinv).1 st2 hd
        · rw [if_neg hvis] at hd
          by_cases hfr : (decide (next ∈ st.frontier) &&
              geOld (gc + ec + h next) (st.fvalD next)) = true
          · rw [if_pos hfr] at hd
            exact (ih st hsub2 hinv).1 st2 hd
          · rw [if_neg hfr] at hd
            by_cases hg : goal next = true
            · rw [if_pos hg] at hd
              have hcd : dictSet st.costD next (gc + ec) next = some (gc + ec) := by
                simp [dictSet]
              rw [hcd] at hd
              cases hfp : followParent fuel (parentSet st.parentD next current) start next with
              | none => rw [hfp] at hd; cases hd
              | some p => rw [hfp] at hd; cases hd
            · rw [if_neg hg] at hd
              have hinv3 : AInv g start
                  { st with
                    parentD := parentSet st.parentD next current
                    costD := dictSet st.costD next (gc + ec)
                    fvalD := dictSet st.fvalD next (gc + ec + h next)
                    frontier := st.frontier ++ [next] } := hinv2
              exact (ih _ hsub2 hinv3).1 st2 hd
      · intro r hr
        unfold relaxEdges at hr
        rw [hcc] at hr
        simp only at hr
        by_cases hvis : next ∈ st.visited
        · rw [if_pos hvis] at hr
          exact (ih st hsub2 hinv).2 r hr
        · rw [if_neg hvis] at hr
          by_cases hfr : (decide (next ∈ st.frontier) &&
              geOld (gc + ec + h next) (st.fvalD next)) = true
          · rw [if_pos hfr] at hr
            exact (ih st hsub2 hinv).2 r hr
          · rw [if_neg hfr] at hr
            by_cases hg : goal next = true
            · rw [if_pos hg] at hr
              have hcd : dictSet st.costD next (gc + ec) next = some (gc + ec) := by
                simp [dictSet]
              rw [hcd] at hr
              cases hfp : followParent fuel (parentSet st.parentD next current) start next with
              | none => rw [hfp] at hr; cases hr
              | some p =>
                rw [hfp] at hr
                cases hr
                obtain ⟨hval, hhead, hlast⟩ :=
                  followParent_sound g (parentSet st.parentD next current) hinv2.2
                    fuel start next p hfp
                refine ⟨hval, hhead, next, hlast, hg, ?_⟩
                have : dictSet st.costD next (gc + ec) next = some (gc + ec) := by
                  simp [dictSet]
                exact hinv2.1 next (gc + ec) this
            · rw [if_neg hg] at hr
              have hinv3 : AInv g start
                  { st with
                    parentD := parentSet st.parentD next current
                    costD := dictSet st.costD next (gc + ec)
                    fvalD := dictSet st.fvalD next (gc + ec + h next)
                    frontier := st.frontier ++ [next] } := hinv2
              exact (ih _ hsub2 hinv3).2 r hr

/-- The main loop preserves the soundness invariant and only returns
results satisfying `FoundOK` (for unit edge costs). -/
theorem aStarLoop_sound {Node : Type} [DecidableEq Node]
    (g : Node → List (Node × Nat)) (hUnit : ∀ n, ∀ e ∈ g n, e.2 = 1)
    (goal : Node → Bool) (h : Node → Nat) (elapsed : Nat → Nat) (tb : Nat)
    (start : Node) :
    ∀ (fuel : Nat) (st : AStarState Node) (r : SearchResult Node),
      AInv g start st →
      aStarLoop g goal h elapsed tb start fuel st = .found r →
      FoundOK g goal start r := by
  intro fuel
  induction fuel with
  | zero =>
    intro st r _ hrun
    unfold aStarLoop at hrun
    cases hrun
  | succ m ih =>
    intro st r hinv hrun
    unfold aStarLoop at hrun
    cases hfr : st.frontier with
    | nil => rw [hfr] at hrun; cases hrun
    | cons a t =>
      rw [hfr] at hrun
      simp only at hrun
      by_cases htime : 1000 * tb < elapsed st.iter
      · rw [if_pos htime] at hrun; cases hrun
      · rw [if_neg htime] at hrun
        cases hdq : dequeueMin st.fvalD (a :: t) with
        | none => rw [hdq] at hrun; cases hrun
        | some pr =>
          obtain ⟨current, rest⟩ := pr
          rw [hdq] at hrun
          simp only at hrun
          have hinv2 : AInv g start { st with frontier := rest } := hinv
          have hsnd := relaxEdges_sound g hUnit goal h m start current (g current)
            { st with frontier := rest } (fun _ he => he) hinv2
          cases hrel : relaxEdges goal h m start current { st with frontier := rest }
              (g current) with
          | stuckR => rw [hrel] at hrun; cases hrun
          | foundR r2 =>
            rw [hrel] at hrun
            have hr2 : r2 = r := by cases hrun; rfl
            subst hr2
            exact hsnd.2 r2 hrel
          | done st2 =>
            rw [hrel] at hrun
            have hinv3 : AInv g start
                { st2 with visited := st2.visited ++ [current], iter := st.iter + 1 } :=
              hsnd.1 st2 hrel
            exact ih _ r hinv3 hrun

/-- C1 (amended): for every finite graph whose edges all have cost 1,
whenever `aStarSearch` returns a `SearchResult`, the returned path is an
actual path of the graph from the start to a node satisfying the goal
predicate, the returned cost is the action count of some such path, and
both the returned path's action count and the returned cost are at least
the true shortest number of actions — but, the goal being tested at
neighbour-generation time, they can strictly exceed it even for an
admissible heuristic (see the counterexample). -/
theorem aStarSearch_unit_cost_lower_bound {Node : Type} [DecidableEq Node]
    (g : Node → List (Node × Nat)) (start : Node) (goal : Node → Bool)
    (h : Node → Nat) (elapsed : Nat → Nat) (tb fuel : Nat) (r : SearchResult Node)
    (hUnit : ∀ n, ∀ e ∈ g n, e.2 = 1)
    (hrun : aStarInstr g start goal h elapsed tb fuel = .found r) :
    GoalPath g goal start r.path ∧
    (∃ q, GoalPath g goal start q ∧ q.length - 1 = r.cost) ∧
    ∀ d, TrueShortest g goal start d → d ≤ r.path.length - 1 ∧ d ≤ r.cost := by
  have hinv : AInv g start
      { frontier := [start]
        costD := dictSet (fun _ => none) start 0
        fvalD := dictSet (fun _ => none) start (h start)
        parentD := fun _ => none
        visited := []
        iter := 0 } := by
    constructor
    · intro n c hn
      dsimp only at hn
      by_cases hns : n = start
      · subst hns
        have : dictSet (fun _ => none) n 0 n = some 0 := by simp [dictSet]
        rw [this] at hn
        cases hn
        exact ⟨[n], rfl, rfl, rfl, rfl⟩
      · have : dictSet (fun _ => none) start 0 n = none := by simp [dictSet, hns]
        rw [this] at hn
        cases hn
    · intro n p hn
      dsimp only at hn
      cases hn
  have hok : FoundOK g goal start r :=
    aStarLoop_sound g hUnit goal h elapsed tb start fuel _ r hinv hrun
  obtain ⟨hval, hhead, v, hlast, hg, q, hq, hqh, hql, hqlen⟩ := hok
  refine ⟨⟨hval, hhead, v, hlast, hg⟩, ⟨q, ⟨hq, hqh, v, hql, hg⟩, by simp [hqlen]⟩, ?_⟩
  intro d hd
  constructor
  · exact hd.2 r.path ⟨hval, hhead, v, hlast, hg⟩
  · have := hd.2 q ⟨hq, hqh, v, hql, hg⟩
    simpa [hqlen] using this

/-! ## A unit-cost counterexample graph with an admissible heuristic

Nodes: 0 the start, 6 the only goal.  The short route is
`0 → 4 → 5 → 6` (3 actions); the long route is `0 → 1 → 2 → 3 → 6`
(4 actions).  The heuristic is admissible (it equals the true remaining
distance on 4 and 5 and is 0 elsewhere), yet the generation-time goal test
lets the long route reach the goal first. -/

/-- The counterexample graph; all edge costs are 1. -/
def g7 : Fin 7 → List (Fin 7 × Nat)
  | 0 => [(4, 1), (1, 1)]
  | 1 => [(2, 1)]
  | 2 => [(3, 1)]
  | 3 => [(6, 1)]
  | 4 => [(5, 1)]
  | 5 => [(6, 1)]
  | 6 => []

/-- The counterexample heuristic. -/
def h7 : Fin 7 → Nat
  | 4 => 2
  | 5 => 1
  | _ => 0

/-- The counterexample goal predicate: exactly node 6. -/
def goal7 (n : Fin 7) : Bool := n == 6

/-- `h7` never overestimates the true remaining distance to the goal. -/
theorem g7_admissible : Admissible g7 goal7 h7 := by
  intro n d hd
  obtain ⟨⟨q, ⟨hv, hh, v, hl, hg⟩, hql⟩, _⟩ := hd
  have hv6 : v = 6 := by simpa [goal7] using hg
  subst hv6
  have hreach := path_reachFwd g7 q n 6 hv hh hl
  rw [hql] at hreach
  fin_cases n
  · simp [h7]
  · simp [h7]
  · simp [h7]
  · simp [h7]
  · show h7 4 ≤ d
    by_contra hlt
    have hd2 : d < 2 := by simp [h7] at hlt; omega
    interval_cases d
    · exact absurd hreach (by decide)
    · exact absurd hreach (by decide)
  · show h7 5 ≤ d
    by_contra hlt
    have hd1 : d < 1 := by simp [h7] at hlt; omega
    interval_cases d
    exact absurd hreach (by decide)
  · simp [h7]

/-- The true shortest number of actions from 0 to the goal of `g7` is 3. -/
theorem g7_shortest : TrueShortest g7 goal7 0 3 := by
  constructor
  · exact ⟨[0, 4, 5, 6], ⟨by decide, rfl, 6, rfl, by decide⟩, rfl⟩
  · intro q hq
    obtain ⟨hv, hh, v, hl, hg⟩ := hq
    have hv6 : v = 6 := by simpa [goal7] using hg
    subst hv6
    have hreach := path_reachFwd g7 q 0 6 hv hh hl
    by_contra hlt
    have hd3 : q.length - 1 < 3 := by omega
    set k := q.length - 1 with hk
    interval_cases k
    · exact absurd hreach (by decide)
    · exact absurd hreach (by decide)
    · exact absurd hreach (by decide)

/-- C1: the claim fails on the code.  On the unit-cost graph `g7` with the
admissible heuristic `h7`, `aStarSearch` returns the path
`[0, 1, 2, 3, 6]` with cost 4, while the true shortest number of actions
from the start to the goal is 3: the returned plan length and cost are not
the optimum.  (The goal is tested when a node is generated, not when it is
dequeued, so the longer route wins the tie on f-value 3.) -/
theorem C1_counterexample :
    (∀ n : Fin 7, ∀ e ∈ g7 n, e.2 = 1) ∧
    Admissible g7 goal7 h7 ∧
    aStarInstr g7 0 goal7 h7 (fun _ => 0) 1 30 =
      .found ⟨[0, 1, 2, 3, 6], 4⟩ ∧
    TrueShortest g7 goal7 0 3 ∧
    (⟨[0, 1, 2, 3, 6], 4⟩ : SearchResult (Fin 7)).cost ≠ 3 ∧
    ([0, 1, 2, 3, 6] : List (Fin 7)).length - 1 ≠ 3 := by
  refine ⟨by decide, g7_admissible, by decide, g7_shortest, by decide, by decide⟩

/-- C1 (witness for the amended theorem): the lower-bound theorem applied
to the concrete run on `g7`. -/
theorem C1_amended_witness :
    GoalPath g7 goal7 0 (⟨[0, 1, 2, 3, 6], 4⟩ : SearchResult (Fin 7)).path ∧
    (∃ q, GoalPath g7 goal7 0 q ∧ q.length - 1 =
      (⟨[0, 1, 2, 3, 6], 4⟩ : SearchResult (Fin 7)).cost) ∧
    ∀ d, TrueShortest g7 goal7 0 d →
      d ≤ (⟨[0, 1, 2, 3, 6], 4⟩ : SearchResult (Fin 7)).path.length - 1 ∧
      d ≤ (⟨[0, 1, 2, 3, 6], 4⟩ : SearchResult (Fin 7)).cost :=
  aStarSearch_unit_cost_lower_bound g7 0 goal7 h7 (fun _ => 0) 1 30
    ⟨[0, 1, 2, 3, 6], 4⟩ (by decide) (by decide)

/-- A two-node graph used in the failure-mode analysis: one edge from the
start to node 1. -/
def gPair : Fin 2 → List (Fin 2 × Nat)
  | 0 => [(1, 1)]
  | 1 => []

/-- C3 (amended): the two failure exits of `aStarSearch` are
indistinguishable to the caller — the `break` on an elapsed time budget and
the exhaustion of the frontier both fall through to the same bare
`return;`, so the caller receives `undefined` in both cases; the only
difference is a console log line, which is not part of the returned
value. -/
theorem aStarSearch_failures_indistinguishable {Node : Type} [DecidableEq Node]
    (g1 g2 : Node → List (Node × Nat)) (s1 s2 : Node) (go1 go2 : Node → Bool)
    (h1 h2 : Node → Nat) (e1 e2 : Nat → Nat) (t1 t2 f1 f2 : Nat)
    (hx1 : aStarInstr g1 s1 go1 h1 e1 t1 f1 = .timeoutBreak)
    (hx2 : aStarInstr g2 s2 go2 h2 e2 t2 f2 = .exhausted) :
    aStarSearch g1 s1 go1 h1 e1 t1 f1 = aStarSearch g2 s2 go2 h2 e2 t2 f2 := by
  unfold aStarSearch
  rw [hx1, hx2]
  rfl

/-- C3: the claim fails on the code.  On `gPair` with the goal `n = 1`, a
run whose time budget has elapsed exits through the timeout `break`
(although the goal was reachable: with fresh time the same search
succeeds), and on the same graph with an unsatisfiable goal the search
exhausts its frontier — yet both runs hand the caller the same `undefined`
result, carrying no distinct signal. -/
theorem C3_counterexample :
    aStarInstr gPair 0 (fun n => n == 1) (fun _ => 0) (fun _ => 2000) 1 10 =
      .timeoutBreak ∧
    aStarInstr gPair 0 (fun n => n == 1) (fun _ => 0) (fun _ => 0) 1 10 =
      .found ⟨[0, 1], 1⟩ ∧
    aStarInstr gPair 0 (fun _ => false) (fun _ => 0) (fun _ => 0) 1 10 =
      .exhausted ∧
    aStarSearch gPair 0 (fun n => n == 1) (fun _ => 0) (fun _ => 2000) 1 10 =
      aStarSearch gPair 0 (fun _ => false) (fun _ => 0) (fun _ => 0) 1 10 ∧
    aStarSearch gPair 0 (fun n => n == 1) (fun _ => 0) (fun _ => 2000) 1 10 = none := by
  refine ⟨by decide, by decide, by decide, by decide, by decide⟩

/-- C3 (witness for the amended theorem): the indistinguishability theorem
applied to the concrete timeout run and the concrete exhaustion run. -/
theorem C3_amended_witness :
    aStarSearch gPair 0 (fun n => n == 1) (fun _ => 0) (fun _ => 2000) 1 10 =
      aStarSearch gPair 0 (fun _ => false) (fun _ => 0) (fun _ => 0) 1 10 :=
  aStarSearch_failures_indistinguishable gPair gPair 0 0 (fun n => n == 1)
    (fun _ => false) (fun _ => 0) (fun _ => 0) (fun _ => 2000) (fun _ => 0) 1 1 10 10
    (by decide) (by decide)

namespace Planner

/-- Evaluation of a single literal following the words of the design
document (section Goal Predicate): `holding` compares the held object,
spatial relations compare the looked-up positions, and a literal with an
indeterminate operand position is unsatisfiable. -/
def litHoldsSpec (n : WorldNode) (f : Interpreter.Literal) : Bool :=
  if f.relation == "holding" then optEqStr n.holding (f.args.getD 0 "")
  else
    let p0 := indexOf2D n.stacks (f.args.getD 0 "")
    let p1 := indexOf2D n.stacks (f.args.getD 1 "")
    if !p0.isFiniteCol || !p1.isFiniteCol then false
    else relEval f.relation (f.args.getD 1 "") p0 p1

/-- The goal predicate following the words of the design document: true
iff at least one conjunction is fully satisfied, a conjunction being
satisfied iff every literal in it holds. -/
def goalSpec (interpretation : List (List Interpreter.Literal)) (n : WorldNode) : Bool :=
  interpretation.any (fun c => c.all (litHoldsSpec n))

/-- Concatenation of the conjunctions of a formula into its literal
sequence, in iteration order. -/
def flatLits : List (List Interpreter.Literal) → List Interpreter.Literal
  | [] => []
  | c :: cs => c ++ flatLits cs

/-- The first-hit scan that characterises the implemented goal predicate:
walk the literal sequence; a satisfied literal makes the predicate true, a
spatial literal with a non-finite operand position makes it false for the
whole state, and the end of the sequence makes it false. -/
def goalScan (n : WorldNode) : List Interpreter.Literal → Bool
  | [] => false
  | f :: fs =>
    if f.relation == "holding" then
      if optEqStr n.holding (f.args.getD 0 "") then true else goalScan n fs
    else
      let p0 := indexOf2D n.stacks (f.args.getD 0 "")
      let p1 := indexOf2D n.stacks (f.args.getD 1 "")
      if !p0.isFiniteCol || !p1.isFiniteCol then false
      else if relEval f.relation (f.args.getD 1 "") p0 p1 then true
      else goalScan n fs

/-- Once the `isGoal` flag is true the literal loop skips all further
evaluation. -/
theorem goalLits_true (n : WorldNode) : ∀ ls, goalLits n true ls = .ok true := by
  intro ls
  induction ls with
  | nil => rfl
  | cons f fs ih => simpa [goalLits] using ih

/-- The literal loop over a concatenation runs the two halves in
sequence. -/
theorem goalLits_append (n : WorldNode) :
    ∀ (a b : List Interpreter.Literal) (g : Bool),
      goalLits n g (a ++ b) =
        match goalLits n g a with
        | .error e => .error e
        | .ok g2 => goalLits n g2 b := by
  intro a
  induction a with
  | nil => intro b g; rfl
  | cons f fs ih =>
    intro b g
    by_cases hg : g
    · subst hg
      simp [goalLits_true]
    · simp only [Bool.not_eq_true] at hg
      subst hg
      simp only [List.cons_append, goalLits, if_neg Bool.false_ne_true]
      by_cases hrel : (f.relation == "holding") = true
      · rw [if_pos hrel, if_pos hrel]
        exact ih b _
      · rw [if_neg hrel, if_neg hrel]
        by_cases hfin : (!(indexOf2D n.stacks (f.args.getD 0 "")).isFiniteCol ||
            !(indexOf2D n.stacks (f.args.getD 1 "")).isFiniteCol) = true
        · simp only [if_pos hfin]
        · simp only [if_neg hfin]
          exact ih b _

/-- The conjunction loop is the literal loop over the concatenated
literal sequence. -/
theorem goalConjs_flat (n : WorldNode) :
    ∀ (F : List (List Interpreter.Literal)) (g : Bool),
      goalConjs n g F = goalLits n g (flatLits F) := by
  intro F
  induction F with
  | nil => intro g; rfl
  | cons c cs ih =>
    intro g
    show (match goalLits n g c with
      | .error b => .error b
      | .ok g2 => goalConjs n g2 cs) = goalLits n g (flatLits (c :: cs))
    rw [show flatLits (c :: cs) = c ++ flatLits cs from rfl, goalLits_append]
    cases goalLits n g c with
    | error e => rfl
    | ok g2 => simpa using ih g2

/-- The flag-carrying literal loop computes the first-hit scan. -/
theorem goalLits_scan (n : WorldNode) :
    ∀ (ls : List Interpreter.Literal),
      (match goalLits n false ls with
        | .error b => b
        | .ok g => g) = goalScan n ls := by
  intro ls
  induction ls with
  | nil => rfl
  | cons f fs ih =>
    show (match goalLits n false (f :: fs) with
      | .error b => b
      | .ok g => g) = goalScan n (f :: fs)
    unfold goalLits goalScan
    simp only [if_neg Bool.false_ne_true]
    by_cases hrel : (f.relation == "holding") = true
    · rw [if_pos hrel, if_pos hrel]
      by_cases hh : optEqStr n.holding (f.args.getD 0 "") = true
      · rw [hh, if_pos rfl]
        rw [goalLits_true]
      · simp only [Bool.not_eq_true] at hh
        rw [hh, if_neg Bool.false_ne_true]
        exact ih
    · rw [if_neg hrel, if_neg hrel]
      by_cases hfin : (!(indexOf2D n.stacks (f.args.getD 0 "")).isFiniteCol ||
          !(indexOf2D n.stacks (f.args.getD 1 "")).isFiniteCol) = true
      · rw [if_pos hfin, if_pos hfin]
      · rw [if_neg hfin, if_neg hfin]
        by_cases hev : relEval f.relation (f.args.getD 1 "")
            (indexOf2D n.stacks (f.args.getD 0 "")) (indexOf2D n.stacks (f.args.getD 1 "")) = true
        · rw [hev, if_pos rfl]
          rw [goalLits_true]
        · simp only [Bool.not_eq_true] at hev
          rw [hev, if_neg Bool.false_ne_true]
          exact ih

/-- C2 (amended): the implemented goal predicate is the first-hit scan of
the concatenated literal sequence — it returns true iff, walking all
literals of all conjunctions in order, some literal holds before any
spatial literal with a non-finite operand position is met; one satisfied
literal suffices, full satisfaction of its conjunction is not required,
and an indeterminate literal makes the predicate false for the whole
state. -/
theorem goal_eq_goalScan (interpretation : List (List Interpreter.Literal))
    (n : WorldNode) :
    goal interpretation n = goalScan n (flatLits interpretation) := by
  unfold goal
  rw [goalConjs_flat]
  exact goalLits_scan n (flatLits interpretation)

/-- C2: the claim fails on the code.  In the state with stacks
`[[a], [b]]`, the formula consisting of the single conjunction
`leftof(a,b) ∧ rightof(a,b)` has no fully satisfied conjunction (its
second literal is false), yet the implemented goal predicate returns
true: the first satisfied literal sets the `isGoal` flag and the rest of
the conjunction is never checked. -/
theorem C2_counterexample :
    goal [[⟨true, "leftof", ["a", "b"]⟩, ⟨true, "rightof", ["a", "b"]⟩]]
      ⟨[["a"], ["b"]], 0, none, fun _ => ⟨"ball", "small", "white"⟩⟩ = true ∧
    goalSpec [[⟨true, "leftof", ["a", "b"]⟩, ⟨true, "rightof", ["a", "b"]⟩]]
      ⟨[["a"], ["b"]], 0, none, fun _ => ⟨"ball", "small", "white"⟩⟩ = false := by
  refine ⟨by decide, by decide⟩

end Planner

namespace Planner

/-- C6 (amended): a spatial literal whose operand positions include a
non-finite one (an object neither in any stack nor the floor, for example
the held object) does not merely count as false: when it is scanned before
any satisfied literal — here, at the head of the first conjunction — the
implemented goal predicate returns false for the whole state, discarding
every remaining conjunction; the evaluation is total (it never throws). -/
theorem goal_indeterminate_first (n : WorldNode) (f : Interpreter.Literal)
    (c : List Interpreter.Literal) (F : List (List Interpreter.Literal))
    (hrel : (f.relation == "holding") = false)
    (hind : (!(indexOf2D n.stacks (f.args.getD 0 "")).isFiniteCol ||
      !(indexOf2D n.stacks (f.args.getD 1 "")).isFiniteCol) = true) :
    goal ((f :: c) :: F) n = false := by
  unfold goal goalConjs goalLits
  simp only [if_neg Bool.false_ne_true, hrel, hind, if_pos, if_false]

/-- C6: the claim fails on the code.  With `c` held (so its position is
non-finite) the formula `[[inside(c,b)], [leftof(a,b)]]` makes the
implemented goal predicate return false although its second conjunction is
fully satisfied (the same predicate evaluates `[[leftof(a,b)]]` to true,
and the spec-following predicate evaluates the whole formula to true). -/
theorem C6_counterexample :
    goal [[⟨true, "inside", ["c", "b"]⟩], [⟨true, "leftof", ["a", "b"]⟩]]
      ⟨[["a"], ["b"]], 0, some "c", fun _ => ⟨"box", "large", "white"⟩⟩ = false ∧
    goalSpec [[⟨true, "inside", ["c", "b"]⟩], [⟨true, "leftof", ["a", "b"]⟩]]
      ⟨[["a"], ["b"]], 0, some "c", fun _ => ⟨"box", "large", "white"⟩⟩ = true ∧
    goal [[⟨true, "leftof", ["a", "b"]⟩]]
      ⟨[["a"], ["b"]], 0, some "c", fun _ => ⟨"box", "large", "white"⟩⟩ = true := by
  refine ⟨by decide, by decide, by decide⟩

/-- C6 (witness for the amended theorem): the theorem applied to the
held-object literal `inside(c,b)` in the state of the counterexample. -/
theorem C6_amended_witness :
    goal [[⟨true, "inside", ["c", "b"]⟩, ⟨true, "ontop", ["a", "floor"]⟩],
        [⟨true, "leftof", ["a", "b"]⟩]]
      ⟨[["a"], ["b"]], 0, some "c", fun _ => ⟨"box", "large", "white"⟩⟩ = false :=
  goal_indeterminate_first
    ⟨[["a"], ["b"]], 0, some "c", fun _ => ⟨"box", "large", "white"⟩⟩
    ⟨true, "inside", ["c", "b"]⟩ [⟨true, "ontop", ["a", "floor"]⟩]
    [[⟨true, "leftof", ["a", "b"]⟩]] (by decide) (by decide)

/-- Every entry of `hArr` is 0 when the state satisfies the goal
predicate. -/
theorem hArrOf_goal_zero (F : List (List Interpreter.Literal)) (n : WorldNode)
    (hg : goal F n = true) :
    ∀ cs, ∀ x ∈ hArrOf F n cs, x = (0 : Int) := by
  intro cs
  induction cs with
  | nil => intro x hx; cases hx
  | cons c cs ih =>
    intro x hx
    unfold hArrOf at hx
    rcases List.mem_append.mp hx with hx1 | hx2
    · obtain ⟨f, _, hf⟩ := List.mem_map.mp hx1
      rw [hg] at hf
      simp at hf
      omega
    · exact ih x hx2

/-- `hArr` is nonempty when some conjunction has a literal. -/
theorem hArrOf_ne_nil (F : List (List Interpreter.Literal)) (n : WorldNode) :
    ∀ cs, (∃ c ∈ cs, c ≠ []) → hArrOf F n cs ≠ [] := by
  intro cs
  induction cs with
  | nil => intro h; obtain ⟨c, hc, _⟩ := h; cases hc
  | cons c cs ih =>
    intro h
    unfold hArrOf
    obtain ⟨c2, hc2, hne⟩ := h
    rcases List.mem_cons.mp hc2 with hcc | hmem
    · subst hcc
      cases c2 with
      | nil => exact absurd rfl hne
      | cons f fs => simp
    · intro habs
      rcases List.append_eq_nil.mp habs with ⟨_, h2⟩
      exact ih ⟨c2, hmem, hne⟩ h2

/-- Folding `min` from 0 over an all-zero list gives 0. -/
theorem foldl_min_zero : ∀ (t : List Int), (∀ x ∈ t, x = 0) →
    List.foldl min (0 : Int) t = 0 := by
  intro t
  induction t with
  | nil => intro _; rfl
  | cons y ys ih =>
    intro hall
    have hy : y = 0 := hall y (by simp)
    subst hy
    show List.foldl min (min 0 0) ys = 0
    rw [min_self]
    exact ih (fun z hz => hall z (by simp [hz]))

/-- The minimum of a nonempty all-zero list is 0. -/
theorem minList_zero : ∀ (l : List Int), l ≠ [] → (∀ x ∈ l, x = 0) →
    minList l = .int 0 := by
  intro l hne hall
  cases l with
  | nil => exact absurd rfl hne
  | cons x t =>
    have hx : x = 0 := hall x (List.mem_cons_self _ _)
    subst hx
    have h0 : minList (0 :: t) = .int (List.foldl min 0 t) := rfl
    rw [h0]
    exact congrArg JNum.int
      (foldl_min_zero t (fun z hz => hall z (List.mem_cons_of_mem _ hz)))

/-- C8: for every world state that satisfies the planner's goal predicate
and every formula containing at least one literal, the heuristic closure
returns 0 (every `hArr` entry is pushed as 0 and their minimum is 0). -/
theorem heuristics_zero_at_goal (F : List (List Interpreter.Literal))
    (n : WorldNode) (hg : goal F n = true) (hne : ∃ c ∈ F, c ≠ []) :
    heuristics F n = .int 0 := by
  unfold heuristics
  exact minList_zero _ (hArrOf_ne_nil F n F hne) (hArrOf_goal_zero F n hg F)

/-- C8 (witness): a state holding `c` satisfies the goal `holding(c)`, and
the heuristic evaluates to 0 there. -/
theorem heuristics_zero_at_goal_witness :
    heuristics [[⟨true, "holding", ["c"]⟩]]
      ⟨[["a"], ["b"]], 0, some "c", fun _ => ⟨"box", "large", "white"⟩⟩ = .int 0 :=
  heuristics_zero_at_goal [[⟨true, "holding", ["c"]⟩]]
    ⟨[["a"], ["b"]], 0, some "c", fun _ => ⟨"box", "large", "white"⟩⟩
    (by decide) ⟨[⟨true, "holding", ["c"]⟩], by simp, by simp⟩

end Planner

namespace WorldNode

/-- The successor list reshaped along the conditions of the design
document: decrement when the arm column is positive, increment when it is
below `stacks.length - 1`, pick when nothing is held and the current
column is non-empty, and placement exactly when the column is empty or the
physical laws allow it. -/
theorem neighbours_eq (s : WorldNode) (hv : s.armCol < s.stacks.length) :
    neighbours s =
      (if 0 < s.armCol then
        [⟨s.stacks, s.armCol - 1, s.holding, s.objects⟩] else []) ++
      (if s.armCol < s.stacks.length - 1 then
        [⟨s.stacks, s.armCol + 1, s.holding, s.objects⟩] else []) ++
      (match s.holding with
      | none =>
        if s.stacks.getD s.armCol [] ≠ [] then
          [⟨s.stacks.set s.armCol (s.stacks.getD s.armCol []).dropLast, s.armCol,
            (s.stacks.getD s.armCol []).getLast?, s.objects⟩]
        else []
      | some hobj =>
        if s.stacks.getD s.armCol [] = [] ∨
            Interpreter.placementLegal (s.objects hobj)
              (s.objects ((s.stacks.getD s.armCol []).getLast?.getD "")) "ontop" = true ∨
            Interpreter.placementLegal (s.objects hobj)
              (s.objects ((s.stacks.getD s.armCol []).getLast?.getD "")) "inside" = true then
          [⟨s.stacks.set s.armCol (s.stacks.getD s.armCol [] ++ [hobj]), s.armCol,
            none, s.objects⟩]
        else []) := by
  have e1 : (s.armCol ≠ 0) ↔ (0 < s.armCol) :=
    ⟨Nat.pos_of_ne_zero, fun h => Nat.pos_iff_ne_zero.mp h⟩
  have e2 : ((s.armCol : Int) ≠ (s.stacks.length : Int) - 1) ↔
      (s.armCol < s.stacks.length - 1) := by omega
  simp only [neighbours]
  refine congrArg₂ (· ++ ·)
    (congrArg₂ (· ++ ·) (if_congr e1 rfl rfl) (if_congr e2 rfl rfl)) ?_
  cases s.holding with
  | none =>
    exact if_congr List.length_pos rfl rfl
  | some hobj =>
    refine if_congr ?_ rfl rfl
    simp [List.length_eq_zero, or_assoc]

/-- The claim's pairwise condition on a supporting object (`below`) and the
object directly on it (`above`): no ball supports anything, and no large
object rests directly on a small one. -/
def pairOk (objs : String → ObjectDefinition) (below above : String) : Bool :=
  !((objs below).form == "ball") &&
    !((objs above).size == "large" && (objs below).size == "small")

/-- All adjacent pairs of one column (listed bottom to top) satisfy the
pairwise condition. -/
def chainOk (objs : String → ObjectDefinition) : List String → Bool
  | [] => true
  | [_] => true
  | a :: b :: t => pairOk objs a b && chainOk objs (b :: t)

/-- No ball directly supports another object and no large object rests
directly on a small object, in any stack of the state. -/
def lawful (s : WorldNode) : Bool := s.stacks.all (chainOk s.objects)

/-- A placement allowed by the physical-law check (for `ontop` or
`inside`) puts nothing on a ball and nothing large on anything small. -/
theorem placementLegal_pairOk (a b : ObjectDefinition)
    (h : (Interpreter.placementLegal a b "ontop" ||
      Interpreter.placementLegal a b "inside") = true) :
    (!(b.form == "ball") && !(a.size == "large" && b.size == "small")) = true := by
  by_cases hball : (b.form == "ball") = true
  · exfalso
    have hf : b.form = "ball" := by simpa using hball
    simp [Interpreter.placementLegal, Interpreter.obeyLaws, hf] at h
  · by_cases hls : (a.size == "large" && b.size == "small") = true
    · exfalso
      have hla : a.size = "large" := by
        have := (Bool.and_eq_true _ _).mp hls |>.1
        simpa using this
      have hsb : b.size = "small" := by
        have := (Bool.and_eq_true _ _).mp hls |>.2
        simpa using this
      simp [Interpreter.placementLegal, Interpreter.obeyLaws, hla, hsb] at h
    · simp only [Bool.not_eq_true] at hball hls
      simp [hball, hls]

/-- Dropping the top object of a lawful column keeps it lawful. -/
theorem chainOk_dropLast (objs : String → ObjectDefinition) :
    ∀ l, chainOk objs l = true → chainOk objs l.dropLast = true := by
  intro l
  induction l with
  | nil => intro _; rfl
  | cons a t ih =>
    intro hc
    cases t with
    | nil => rfl
    | cons b t2 =>
      cases t2 with
      | nil => rfl
      | cons c t3 =>
        have h1 : pairOk objs a b = true := by
          have := hc
          unfold chainOk at this
          exact (Bool.and_eq_true _ _).mp this |>.1
        have h2 : chainOk objs (b :: c :: t3) = true := by
          have := hc
          unfold chainOk at this
          exact (Bool.and_eq_true _ _).mp this |>.2
        have h3 := ih h2
        show chainOk objs (a :: (b :: c :: t3).dropLast) = true
        have h4 : (b :: c :: t3).dropLast = b :: (c :: t3).dropLast := rfl
        rw [h4]
        unfold chainOk
        refine (Bool.and_eq_true _ _).mpr ⟨h1, ?_⟩
        rw [h4] at h3
        exact h3

/-- Placing `h` on a lawful column is lawful when the column is empty or
the new top pair satisfies the pairwise condition. -/
theorem chainOk_append_one (objs : String → ObjectDefinition) :
    ∀ (l : List String) (h : String), chainOk objs l = true →
      (l = [] ∨ pairOk objs (l.getLast?.getD "") h = true) →
      chainOk objs (l ++ [h]) = true := by
  intro l
  induction l with
  | nil => intro h _ _; rfl
  | cons a t ih =>
    intro h hc hd
    rcases hd with hd | hd
    · cases hd
    cases t with
    | nil =>
      show chainOk objs (a :: h :: []) = true
      unfold chainOk
      refine (Bool.and_eq_true _ _).mpr ⟨?_, rfl⟩
      simpa using hd
    | cons b t2 =>
      have h1 : pairOk objs a b = true := by
        have := hc
        unfold chainOk at this
        exact (Bool.and_eq_true _ _).mp this |>.1
      have h2 : chainOk objs (b :: t2) = true := by
        have := hc
        unfold chainOk at this
        exact (Bool.and_eq_true _ _).mp this |>.2
      have hd2 : pairOk objs ((b :: t2).getLast?.getD "") h = true := by
        have : (a :: b :: t2).getLast?.getD "" = (b :: t2).getLast?.getD "" := by
          simp
        rw [this] at hd
        exact hd
      have h3 := ih h h2 (Or.inr hd2)
      show chainOk objs (a :: ((b :: t2) ++ [h])) = true
      have h4 : (b :: t2) ++ [h] = b :: (t2 ++ [h]) := rfl
      rw [h4]
      unfold chainOk
      refine (Bool.and_eq_true _ _).mpr ⟨h1, ?_⟩
      rw [h4] at h3
      exact h3

/-- The column under the arm is one of the stacks. -/
theorem getD_mem_of_lt {α : Type} (l : List α) (i : Nat) (d : α) (h : i < l.length) :
    l.getD i d ∈ l := by
  rw [List.getD_eq_getElem l d h]
  exact List.getElem_mem h

/-- C4: for every world state whose arm column is in range and in which no
ball directly supports another object and no large object rests directly
on a small object, every state produced by `neighbours` satisfies the same
two laws: arm moves and picking leave or shrink the columns, and placing
the held object on a non-empty column is gated by the physical-law check,
which forbids both violations. -/
theorem neighbours_preserve_laws (s : WorldNode) (hv : s.armCol < s.stacks.length)
    (hl : lawful s = true) : ∀ t ∈ neighbours s, lawful t = true := by
  intro t ht
  rw [neighbours_eq s hv] at ht
  have hcol : s.stacks.getD s.armCol [] ∈ s.stacks := getD_mem_of_lt _ _ _ hv
  have hchain : chainOk s.objects (s.stacks.getD s.armCol []) = true :=
    List.all_eq_true.mp hl _ hcol
  rcases List.mem_append.mp ht with h12 | h3
  · rcases List.mem_append.mp h12 with h1 | h2
    · by_cases hc : 0 < s.armCol
      · rw [if_pos hc] at h1
        simp only [List.mem_singleton] at h1
        subst h1
        exact hl
      · rw [if_neg hc] at h1
        cases h1
    · by_cases hc : s.armCol < s.stacks.length - 1
      · rw [if_pos hc] at h2
        simp only [List.mem_singleton] at h2
        subst h2
        exact hl
      · rw [if_neg hc] at h2
        cases h2
  · cases hh : s.holding with
    | none =>
      rw [hh] at h3
      by_cases hc : s.stacks.getD s.armCol [] ≠ []
      · rw [if_pos hc] at h3
        simp only [List.mem_singleton] at h3
        subst h3
        show (s.stacks.set s.armCol (s.stacks.getD s.armCol []).dropLast).all
          (chainOk s.objects) = true
        rw [List.all_eq_true]
        intro c hc2
        rcases List.mem_or_eq_of_mem_set hc2 with hmem | heq
        · exact List.all_eq_true.mp hl c hmem
        · subst heq
          exact chainOk_dropLast s.objects _ hchain
      · rw [if_neg hc] at h3
        cases h3
    | some hobj =>
      rw [hh] at h3
      dsimp only at h3
      by_cases hc : s.stacks.getD s.armCol [] = [] ∨
          Interpreter.placementLegal (s.objects hobj)
            (s.objects ((s.stacks.getD s.armCol []).getLast?.getD "")) "ontop" = true ∨
          Interpreter.placementLegal (s.objects hobj)
            (s.objects ((s.stacks.getD s.armCol []).getLast?.getD "")) "inside" = true
      · rw [if_pos hc] at h3
        simp only [List.mem_singleton] at h3
        subst h3
        show (s.stacks.set s.armCol (s.stacks.getD s.armCol [] ++ [hobj])).all
          (chainOk s.objects) = true
        rw [List.all_eq_true]
        intro c hc2
        rcases List.mem_or_eq_of_mem_set hc2 with hmem | heq
        · exact List.all_eq_true.mp hl c hmem
        · subst heq
          refine chainOk_append_one s.objects _ hobj hchain ?_
          rcases hc with hc | hc | hc
          · exact Or.inl hc
          · exact Or.inr (placementLegal_pairOk (s.objects hobj) _
              ((Bool.or_eq_true _ _).mpr (Or.inl hc)))
          · exact Or.inr (placementLegal_pairOk (s.objects hobj) _
              ((Bool.or_eq_true _ _).mpr (Or.inr hc)))
      · rw [if_neg hc] at h3
        cases h3

/-- C4 (witness): in a lawful two-column state the move-right successor is
lawful. -/
theorem neighbours_preserve_laws_witness :
    lawful ⟨[["a"], ["b"]], 0 + 1, none, fun _ => ⟨"box", "large", "white"⟩⟩ = true :=
  neighbours_preserve_laws
    ⟨[["a"], ["b"]], 0, none, fun _ => ⟨"box", "large", "white"⟩⟩
    (by decide) (by decide)
    ⟨[["a"], ["b"]], 0 + 1, none, fun _ => ⟨"box", "large", "white"⟩⟩
    (by exact List.mem_cons_self _ _)

/-- C5: for every world state whose arm column is in range, `neighbours`
produces exactly: the arm-decrement state when the arm column is positive,
the arm-increment state when it is below `stacks.length - 1`, the pick
state (top of the current column removed and held) when nothing is held
and the current column is non-empty, and — exactly when the column is
empty or the placement obeys the physical laws — the state placing the
held object on top of the current column. -/
theorem neighbours_enumeration (s : WorldNode) (hv : s.armCol < s.stacks.length) :
    neighbours s =
      (if 0 < s.armCol then
        [⟨s.stacks, s.armCol - 1, s.holding, s.objects⟩] else []) ++
      (if s.armCol < s.stacks.length - 1 then
        [⟨s.stacks, s.armCol + 1, s.holding, s.objects⟩] else []) ++
      (match s.holding with
      | none =>
        if s.stacks.getD s.armCol [] ≠ [] then
          [⟨s.stacks.set s.armCol (s.stacks.getD s.armCol []).dropLast, s.armCol,
            (s.stacks.getD s.armCol []).getLast?, s.objects⟩]
        else []
      | some hobj =>
        if s.stacks.getD s.armCol [] = [] ∨
            Interpreter.placementLegal (s.objects hobj)
              (s.objects ((s.stacks.getD s.armCol []).getLast?.getD "")) "ontop" = true ∨
            Interpreter.placementLegal (s.objects hobj)
              (s.objects ((s.stacks.getD s.armCol []).getLast?.getD "")) "inside" = true then
          [⟨s.stacks.set s.armCol (s.stacks.getD s.armCol [] ++ [hobj]), s.armCol,
            none, s.objects⟩]
        else []) :=
  neighbours_eq s hv

/-- C5 (witness): the enumeration at a concrete state — arm at column 0 of
two columns, holding nothing — evaluates to the move-right and pick
successors. -/
theorem neighbours_enumeration_witness :
    neighbours ⟨[["a"], ["b"]], 0, none, fun _ => ⟨"box", "large", "white"⟩⟩ =
      (if 0 < (0 : Nat) then
        [⟨[["a"], ["b"]], 0 - 1, none, fun _ => ⟨"box", "large", "white"⟩⟩] else []) ++
      (if (0 : Nat) < [["a"], ["b"]].length - 1 then
        [⟨[["a"], ["b"]], 0 + 1, none, fun _ => ⟨"box", "large", "white"⟩⟩] else []) ++
      (if ([["a"], ["b"]] : List (List String)).getD 0 [] ≠ [] then
        [⟨([["a"], ["b"]] : List (List String)).set 0
            (([["a"], ["b"]] : List (List String)).getD 0 []).dropLast, 0,
          (([["a"], ["b"]] : List (List String)).getD 0 []).getLast?,
          fun _ => ⟨"box", "large", "white"⟩⟩]
      else []) :=
  neighbours_enumeration ⟨[["a"], ["b"]], 0, none, fun _ => ⟨"box", "large", "white"⟩⟩
    (by decide)

/-- C7: calling `neighbours` twice on the same state yields structurally
identical result lists, and neither call modifies the receiver: the first
call returns the receiver unchanged, and the second call, made on the
receiver as the first call left it, returns the same list and the same
receiver.  The arm-in-range hypothesis restricts the statement to the
states on which the source method runs without throwing (out of range, the
JavaScript indexes `undefined`), where the embedding is faithful. -/
theorem neighboursCall_idempotent (s : WorldNode) (hv : s.armCol < s.stacks.length) :
    (neighboursCall s).2 = s ∧
    (neighboursCall (neighboursCall s).2).1 = (neighboursCall s).1 ∧
    (neighboursCall (neighboursCall s).2).2 = s := by
  exact ⟨rfl, rfl, rfl⟩

/-- C7 (witness): the double call at a concrete state. -/
theorem neighboursCall_idempotent_witness :
    (neighboursCall ⟨[["a"], ["b"]], 0, none,
        fun _ => ⟨"box", "large", "white"⟩⟩).2 =
      ⟨[["a"], ["b"]], 0, none, fun _ => ⟨"box", "large", "white"⟩⟩ ∧
    (neighboursCall (neighboursCall ⟨[["a"], ["b"]], 0, none,
        fun _ => ⟨"box", "large", "white"⟩⟩).2).1 =
      (neighboursCall ⟨[["a"], ["b"]], 0, none,
        fun _ => ⟨"box", "large", "white"⟩⟩).1 ∧
    (neighboursCall (neighboursCall ⟨[["a"], ["b"]], 0, none,
        fun _ => ⟨"box", "large", "white"⟩⟩).2).2 =
      ⟨[["a"], ["b"]], 0, none, fun _ => ⟨"box", "large", "white"⟩⟩ :=
  neighboursCall_idempotent
    ⟨[["a"], ["b"]], 0, none, fun _ => ⟨"box", "large", "white"⟩⟩ (by decide)

end WorldNode

namespace Planner

/-- The token the claim prescribes for a consecutive pair: right on an arm
increment, left on a decrement, pick when the held object goes from empty
to non-empty, drop when it goes from non-empty to empty. -/
def claimTok (a b : WorldNode) : String :=
  if a.armCol < b.armCol then "r"
  else if b.armCol < a.armCol then "l"
  else if a.holding = none ∧ b.holding ≠ none then "p"
  else if a.holding ≠ none ∧ b.holding = none then "d"
  else ""

/-- One claim token per consecutive pair of the path. -/
def claimTokens : List WorldNode → List String
  | [] => []
  | [_] => []
  | a :: b :: t => claimTok a b :: claimTokens (b :: t)

/-- On a pair related by one primitive action (a `neighbours` successor
from a state with the arm in range), the implemented token equals the
claim's token. -/
theorem stepTok_eq_claimTok (a b : WorldNode) (hb : b ∈ WorldNode.neighbours a)
    (hv : a.armCol < a.stacks.length) : stepTok a b = claimTok a b := by
  rw [WorldNode.neighbours_eq a hv] at hb
  rcases List.mem_append.mp hb with h12 | h3
  · rcases List.mem_append.mp h12 with h1 | h2
    · by_cases hc : 0 < a.armCol
      · rw [if_pos hc] at h1
        simp only [List.mem_singleton] at h1
        subst h1
        have hlt1 : ¬(a.armCol < a.armCol - 1) := by omega
        have hlt2 : a.armCol - 1 < a.armCol := by omega
        simp [stepTok, claimTok, hlt1, hlt2]
      · rw [if_neg hc] at h1
        cases h1
    · by_cases hc : a.armCol < a.stacks.length - 1
      · rw [if_pos hc] at h2
        simp only [List.mem_singleton] at h2
        subst h2
        have hlt1 : a.armCol < a.armCol + 1 := by omega
        simp [stepTok, claimTok, hlt1]
      · rw [if_neg hc] at h2
        cases h2
  · cases hh : a.holding with
    | none =>
      rw [hh] at h3
      dsimp only at h3
      by_cases hc : a.stacks.getD a.armCol [] ≠ []
      · rw [if_pos hc] at h3
        simp only [List.mem_singleton] at h3
        subst h3
        have hne : (a.stacks.getD a.armCol []).getLast? ≠ none := by
          intro habs
          have := List.getLast?_isSome.mpr hc
          rw [habs] at this
          cases this
        simp [stepTok, claimTok, hh, hne]
        rw [if_neg (by simpa using hc)]
      · rw [if_neg hc] at h3
        cases h3
    | some hobj =>
      rw [hh] at h3
      dsimp only at h3
      by_cases hc : a.stacks.getD a.armCol [] = [] ∨
          Interpreter.placementLegal (a.objects hobj)
            (a.objects ((a.stacks.getD a.armCol []).getLast?.getD "")) "ontop" = true ∨
          Interpreter.placementLegal (a.objects hobj)
            (a.objects ((a.stacks.getD a.armCol []).getLast?.getD "")) "inside" = true
      · rw [if_pos hc] at h3
        simp only [List.mem_singleton] at h3
        subst h3
        simp [stepTok, claimTok, hh]
      · rw [if_neg hc] at h3
        cases h3

/-- The rendered plan has one token per consecutive pair. -/
theorem renderPlan_length : ∀ path : List WorldNode,
    (renderPlan path).length = path.length - 1 := by
  intro path
  induction path with
  | nil => rfl
  | cons a t ih =>
    cases t with
    | nil => rfl
    | cons b t2 =>
      show (stepTok a b :: renderPlan (b :: t2)).length = (a :: b :: t2).length - 1
      simp only [List.length_cons]
      rw [show (renderPlan (b :: t2)).length = (b :: t2).length - 1 from ih]
      simp

/-- C9: on every path whose consecutive nodes differ by exactly one
primitive action (each node a `neighbours` successor of its predecessor,
with the arm in range), the renderer emits exactly one token per
consecutive pair, and the token is the one the claim prescribes —
right-move on an arm increment, left-move on a decrement, pick when the
held object becomes non-empty, drop when it becomes empty; an empty token
list is replaced by the single sentinel notice. -/
theorem renderPlan_claim (path : List WorldNode)
    (hch : path.Chain' (fun a b =>
      b ∈ WorldNode.neighbours a ∧ a.armCol < a.stacks.length)) :
    renderPlan path = claimTokens path ∧
    (renderPlan path).length = path.length - 1 ∧
    (renderPlan path = [] →
      wrapPlan (renderPlan path) = ["That is already true!"]) := by
  refine ⟨?_, renderPlan_length path, ?_⟩
  · induction path with
    | nil => rfl
    | cons a t ih =>
      cases t with
      | nil => rfl
      | cons b t2 =>
        rcases List.chain'_cons.mp hch with ⟨⟨hb, hv⟩, hch2⟩
        show stepTok a b :: renderPlan (b :: t2) = claimTok a b :: claimTokens (b :: t2)
        rw [stepTok_eq_claimTok a b hb hv, ih hch2]
  · intro he
    rw [he]
    rfl

/-- C9 (witness): rendering a one-step pick path emits exactly the one
claim token, and the sentinel replaces an empty token list. -/
theorem renderPlan_claim_witness :
    renderPlan [⟨[["a"]], 0, none, fun _ => ⟨"box", "large", "white"⟩⟩,
        ⟨[[]], 0, some "a", fun _ => ⟨"box", "large", "white"⟩⟩] =
      claimTokens [⟨[["a"]], 0, none, fun _ => ⟨"box", "large", "white"⟩⟩,
        ⟨[[]], 0, some "a", fun _ => ⟨"box", "large", "white"⟩⟩] ∧
    (renderPlan [⟨[["a"]], 0, none, fun _ => ⟨"box", "large", "white"⟩⟩,
        ⟨[[]], 0, some "a", fun _ => ⟨"box", "large", "white"⟩⟩]).length =
      ([⟨[["a"]], 0, none, fun _ => ⟨"box", "large", "white"⟩⟩,
        ⟨[[]], 0, some "a", fun _ => ⟨"box", "large", "white"⟩⟩] :
          List WorldNode).length - 1 ∧
    (renderPlan [⟨[["a"]], 0, none, fun _ => ⟨"box", "large", "white"⟩⟩,
        ⟨[[]], 0, some "a", fun _ => ⟨"box", "large", "white"⟩⟩] = [] →
      wrapPlan (renderPlan [⟨[["a"]], 0, none, fun _ => ⟨"box", "large", "white"⟩⟩,
        ⟨[[]], 0, some "a", fun _ => ⟨"box", "large", "white"⟩⟩]) =
        ["That is already true!"]) :=
  renderPlan_claim
    [⟨[["a"]], 0, none, fun _ => ⟨"box", "large", "white"⟩⟩,
      ⟨[[]], 0, some "a", fun _ => ⟨"box", "large", "white"⟩⟩]
    (List.chain'_pair.mpr ⟨List.mem_singleton.mpr rfl, by decide⟩)

end Planner

namespace Planner

/-- The errors collected by the driver, in iteration order. -/
def errsOf {I E : Type} (planInt : I → Except E (List String)) (l : List I) : List E :=
  l.filterMap (fun i =>
    match planInt i with
    | .error e => some e
    | .ok _ => none)

/-- The result entries collected by the driver: one sentinel-wrapped entry
per interpretation whose planning succeeded, in iteration order. -/
def succOf {I E : Type} (planInt : I → Except E (List String)) (l : List I) :
    List (I × List String) :=
  l.filterMap (fun i =>
    match planInt i with
    | .ok p => some (i, wrapPlan p)
    | .error _ => none)

/-- The driver loop appends exactly the collected errors and the collected
successes to its accumulators. -/
theorem planLoop_spec {I E : Type} (planInt : I → Except E (List String)) :
    ∀ (l : List I) (errs : List E) (plans : List (I × List String)),
      planLoop planInt l errs plans =
        (errs ++ errsOf planInt l, plans ++ succOf planInt l) := by
  intro l
  induction l with
  | nil => intro errs plans; simp [planLoop, errsOf, succOf]
  | cons i rest ih =>
    intro errs plans
    cases hfi : planInt i with
    | ok p =>
      show planLoop planInt (i :: rest) errs plans = _
      unfold planLoop
      rw [hfi]
      dsimp only
      rw [ih]
      unfold errsOf succOf
      rw [List.filterMap_cons, List.filterMap_cons, hfi]
      simp
    | error e =>
      show planLoop planInt (i :: rest) errs plans = _
      unfold planLoop
      rw [hfi]
      dsimp only
      rw [ih]
      unfold errsOf succOf
      rw [List.filterMap_cons, List.filterMap_cons, hfi]
      simp

/-- C10 (amended): `Planner.plan` returns exactly the entries of the
interpretations whose planning completed without raising, in order; when
no interpretation succeeded it raises `errors[0]` — the first collected
error when at least one interpretation was given and failed, and the
JavaScript `undefined` value (modelled `none`) on an empty interpretation
list, where no error occurred at all. -/
theorem plan_characterisation {I E : Type} (planInt : I → Except E (List String))
    (l : List I) :
    plan planInt l =
      match succOf planInt l with
      | [] => .error (errsOf planInt l).head?
      | x :: t => .ok (x :: t) := by
  unfold plan
  rw [planLoop_spec]
  simp only [List.nil_append]
  cases hsucc : succOf planInt l with
  | nil => simp [hsucc]
  | cons x t => simp [hsucc]

/-- C10: the claim fails on the code at the empty interpretation list: the
driver raises although no planning error occurred (there is no first error
to re-raise — the thrown `errors[0]` is `undefined`). -/
theorem C10_counterexample :
    plan (fun i : Nat => (.error i : Except Nat (List String))) [] = .error none ∧
    errsOf (fun i : Nat => (.error i : Except Nat (List String))) [] = [] :=
  ⟨rfl, rfl⟩

end Planner
